import Mathlib

/-!
Shallow embedding of the data-preparation pipeline of
`supermoon_interactive_table` (files `branded_map.py`, `app.py`,
`branded_table_generator.py`), together with proofs of the spec claims
about it.

The embedding covers:
* the Python string primitives the pipeline uses (`strip`, `upper`,
  `lower`, `title`);
* the `STATE_ABBR` / `STATE_LOOKUP` tables (`branded_map.py` lines
  292-354) and the per-row state-identifier normalization performed in
  `generate_map_table_html_from_df` (lines 797-805);
* metric coercion (strip `%`/`,`, numeric parse; lines 807-813);
* the row filters (lines 815-816), pandas
  `rank(ascending=False, method="min")` (line 821) and the
  `fill_norm` computation (lines 841-845);
* the high/low table derivation (`build_ranked_table_html`, lines
  740-763, and its call sites at lines 1051-1055);
* `find_next_widget_filename` (`app.py` lines 156-183 and the
  `t`-prefixed copies in `branded_map.py` / `branded_table_generator.py`).

Numbers are modelled as `ℚ` (exact arithmetic in place of Python
floats); machine-level floating point behaviour is out of scope.
-/

set_option maxRecDepth 100000

namespace Supermoon

/-! ### Python string primitives -/

/-- Whitespace characters stripped by Python `str.strip()`. -/
def isWS (c : Char) : Bool :=
  c = ' ' ∨ c = '\t' ∨ c = '\n' ∨ c = '\r' ∨ c = '\x0b' ∨ c = '\x0c'

/-- Strip leading and trailing whitespace from a character list. -/
def stripChars (l : List Char) : List Char :=
  ((l.dropWhile isWS).reverse.dropWhile isWS).reverse

/-- Python `str.strip()`. -/
def pyStrip (s : String) : String := String.mk (stripChars s.data)

/-- Python `str.upper()` (ASCII fragment). -/
def pyUpper (s : String) : String := String.mk (s.data.map Char.toUpper)

/-- Python `str.lower()` (ASCII fragment). -/
def pyLower (s : String) : String := String.mk (s.data.map Char.toLower)

/-- One step of Python `str.title()`: a cased character is upper-cased
when the previous character is not alphabetic, lower-cased otherwise. -/
def titleAux : Bool → List Char → List Char
  | _, [] => []
  | prevAlpha, c :: cs =>
    (if c.isAlpha then (if prevAlpha then c.toLower else c.toUpper) else c)
      :: titleAux c.isAlpha cs

/-- Python `str.title()` (ASCII fragment). -/
def pyTitle (s : String) : String := String.mk (titleAux false s.data)

/-! ### State lookup table (`branded_map.py` lines 292-354) -/

/-- `STATE_ABBR`: full state name to 2-letter postal code
(`branded_map.py` lines 292-343). -/
def STATE_ABBR : List (String × String) :=
  [("Alabama", "AL"), ("Alaska", "AK"), ("Arizona", "AZ"),
   ("Arkansas", "AR"), ("California", "CA"), ("Colorado", "CO"),
   ("Connecticut", "CT"), ("Delaware", "DE"), ("Florida", "FL"),
   ("Georgia", "GA"), ("Hawaii", "HI"), ("Idaho", "ID"),
   ("Illinois", "IL"), ("Indiana", "IN"), ("Iowa", "IA"),
   ("Kansas", "KS"), ("Kentucky", "KY"), ("Louisiana", "LA"),
   ("Maine", "ME"), ("Maryland", "MD"), ("Massachusetts", "MA"),
   ("Michigan", "MI"), ("Minnesota", "MN"), ("Mississippi", "MS"),
   ("Missouri", "MO"), ("Montana", "MT"), ("Nebraska", "NE"),
   ("Nevada", "NV"), ("New Hampshire", "NH"), ("New Jersey", "NJ"),
   ("New Mexico", "NM"), ("New York", "NY"), ("North Carolina", "NC"),
   ("North Dakota", "ND"), ("Ohio", "OH"), ("Oklahoma", "OK"),
   ("Oregon", "OR"), ("Pennsylvania", "PA"), ("Rhode Island", "RI"),
   ("South Carolina", "SC"), ("South Dakota", "SD"), ("Tennessee", "TN"),
   ("Texas", "TX"), ("Utah", "UT"), ("Vermont", "VT"),
   ("Virginia", "VA"), ("Washington", "WA"), ("West Virginia", "WV"),
   ("Wisconsin", "WI"), ("Wyoming", "WY")]

/-- `STATE_LOOKUP` (`branded_map.py` lines 346-354): for each state the
loop body inserts, in order, `name`, `name.title()`, `name.upper()`,
`name.lower()`, `code`, `code.upper()`, `code.lower()`, all mapped to
`code`.  Insertion order is kept so that lookup can honour Python's
last-write-wins dict semantics. -/
def STATE_LOOKUP : List (String × String) :=
  STATE_ABBR.foldl
    (fun d p =>
      d ++ [(p.1, p.2), (pyTitle p.1, p.2), (pyUpper p.1, p.2),
            (pyLower p.1, p.2), (p.2, p.2), (pyUpper p.2, p.2),
            (pyLower p.2, p.2)])
    []

/-- Lookup in an insertion-ordered association list with Python dict
semantics: the value of the last insertion for the key. -/
def dictFind (d : List (String × String)) (k : String) : Option String :=
  List.lookup k d.reverse

/-- Classification step of the normalizer (`branded_map.py` lines
800-803): identifiers longer than 2 characters are title-cased, the
rest are upper-cased. -/
def classify (t : String) : String :=
  if 2 < t.length then pyTitle t else pyUpper t

/-- The state-identifier normalizer: strip, classify, look up in
`STATE_LOOKUP` (`branded_map.py` lines 797-805; `.map(STATE_LOOKUP)`
yields `NaN`, i.e. `none`, for missing keys). -/
def normalize (s : String) : Option String :=
  dictFind STATE_LOOKUP (classify (pyStrip s))

example : normalize "Texas" = some "TX" := by rfl
example : normalize " california " = some "CA" := by rfl
example : normalize "ca" = some "CA" := by rfl
example : normalize "Atlantis" = none := by rfl
example : normalize "  " = none := by rfl

/-! ### Metric coercion (`branded_map.py` lines 807-813)

`df[value_col].astype(str).str.replace("%", "").str.replace(",", "")`
followed by `pd.to_numeric(..., errors="coerce")`. -/

/-- Accumulate the value of a decimal digit string. -/
def digitsValAux (a : ℕ) : List Char → ℕ
  | [] => a
  | c :: cs => digitsValAux (10 * a + (c.toNat - 48)) cs

/-- Value of a decimal digit string (leading zeros allowed). -/
def digitsVal (ds : List Char) : ℕ := digitsValAux 0 ds

/-- Syntactic parts of a decimal floating-point literal: sign, integer
part, fraction digits (value and count), exponent. -/
structure NumParts where
  neg : Bool
  ip : ℕ
  fp : ℕ
  fplen : ℕ
  ex : ℤ
deriving DecidableEq, Repr

/-- Decimal floating-point literal grammar modelling
`pd.to_numeric(..., errors="coerce")` on a single cell: surrounding
whitespace allowed, optional sign, integer part, optional fractional
part, optional exponent, nothing else; at least one digit in the
mantissa. -/
def parseNum (l : List Char) : Option NumParts :=
  let l0 := stripChars l
  let sgnRest : Bool × List Char :=
    match l0 with
    | '-' :: t => (true, t)
    | '+' :: t => (false, t)
    | _ => (false, l0)
  let ip := sgnRest.2.takeWhile Char.isDigit
  let l2 := sgnRest.2.dropWhile Char.isDigit
  let fpRest : List Char × List Char :=
    match l2 with
    | '.' :: t => (t.takeWhile Char.isDigit, t.dropWhile Char.isDigit)
    | _ => ([], l2)
  if ip.isEmpty ∧ fpRest.1.isEmpty then none
  else
    let expRest : Option ℤ × List Char :=
      match fpRest.2 with
      | 'e' :: t | 'E' :: t =>
        let esRest : Bool × List Char :=
          match t with
          | '-' :: u => (true, u)
          | '+' :: u => (false, u)
          | _ => (false, t)
        let ed := esRest.2.takeWhile Char.isDigit
        (if ed.isEmpty then none
         else some ((if esRest.1 then -1 else 1) * (digitsVal ed : ℤ)),
         esRest.2.dropWhile Char.isDigit)
      | _ => (some 0, fpRest.2)
    match expRest.1, expRest.2 with
    | some e, [] => some ⟨sgnRest.1, digitsVal ip, digitsVal fpRest.1, fpRest.1.length, e⟩
    | _, _ => none

/-- The exact rational value of a parsed literal. -/
def partsVal (p : NumParts) : ℚ :=
  (if p.neg then -1 else 1) * ((p.ip : ℚ) + (p.fp : ℚ) / (10 : ℚ) ^ p.fplen)
    * (10 : ℚ) ^ p.ex

/-- Numeric parse of one cell, as an exact rational. -/
def pyFloatChars (l : List Char) : Option ℚ := (parseNum l).map partsVal

/-- Remove every `%` and `,` character
(`.str.replace("%", "", regex=False).str.replace(",", "", regex=False)`). -/
def cleanMetricChars (l : List Char) : List Char :=
  l.filter (fun c => ¬ (c = '%' ∨ c = ','))

/-- Metric coercion of one cell: strip `%`/`,`, then numeric parse;
`none` models pandas `NaN` from `errors="coerce"`. -/
def coerceMetric (s : String) : Option ℚ :=
  pyFloatChars (cleanMetricChars s.data)

example : coerceMetric "abc" = none := by rfl

example : coerceMetric "12.5%" = some (25 / 2) := by
  have h : parseNum (cleanMetricChars "12.5%".data) = some ⟨false, 12, 5, 1, 0⟩ := by rfl
  rw [coerceMetric, pyFloatChars, h, Option.map_some']
  norm_num [partsVal]

example : coerceMetric "1,234" = some 1234 := by
  have h : parseNum (cleanMetricChars "1,234".data) = some ⟨false, 1234, 0, 0, 0⟩ := by rfl
  rw [coerceMetric, pyFloatChars, h, Option.map_some']
  norm_num [partsVal]

/-! ### The row pipeline (`generate_map_table_html_from_df`, lines 795-816) -/

/-- One uploaded row, restricted to the two columns the pipeline reads:
the state/identity cell and the metric cell. -/
structure RawRow where
  state : String
  metric : String
deriving DecidableEq, Repr

/-- One surviving row of the working set: both the canonical code and
the numeric metric are present (total fields). -/
structure Record where
  state : String
  canonical_code : String
  metric : ℚ
deriving DecidableEq, Repr

/-- The data-preparation pipeline of `generate_map_table_html_from_df`
(lines 795-816): strip the state column, compute the `state_abbr`
column (the normalizer strips again, a no-op) and the coerced metric
column, drop rows with missing `state_abbr`, then drop rows with
missing metric.  Surviving rows become total `Record`s. -/
def pipelineRecords (rows : List RawRow) : List Record :=
  let rows1 := rows.map (fun r => RawRow.mk (pyStrip r.state) r.metric)
  let ann := rows1.map (fun r => (r, normalize r.state, coerceMetric r.metric))
  let f1 := ann.filter (fun t => t.2.1.isSome)
  let f2 := f1.filter (fun t => t.2.2.isSome)
  f2.filterMap (fun t =>
    t.2.1.bind (fun c => t.2.2.map (fun m => Record.mk t.1.state c m)))

/-! ### Rank computation (`branded_map.py` line 821)

`df["rank"] = df[value_col].rank(ascending=False, method="min").astype(int)`:
with `method="min"`, a row's rank is the smallest ordinal position its
value occupies in a descending sort, 1-based. -/

/-- Insert into a list sorted descending by `key`. -/
def insertDescBy {α : Type} (key : α → ℚ) (x : α) : List α → List α
  | [] => [x]
  | y :: ys => if key y ≤ key x then x :: y :: ys else y :: insertDescBy key x ys

/-- Sort descending by `key` (insertion sort). -/
def sortDescBy {α : Type} (key : α → ℚ) : List α → List α
  | [] => []
  | x :: xs => insertDescBy key x (sortDescBy key xs)

/-- Insert into a list sorted ascending by `key`. -/
def insertAscBy {α : Type} (key : α → ℚ) (x : α) : List α → List α
  | [] => [x]
  | y :: ys => if key x ≤ key y then x :: y :: ys else y :: insertAscBy key x ys

/-- Sort ascending by `key` (insertion sort). -/
def sortAscBy {α : Type} (key : α → ℚ) : List α → List α
  | [] => []
  | x :: xs => insertAscBy key x (sortAscBy key xs)

/-- Index of the first occurrence of `x` (0-based; length when absent). -/
def firstPos (x : ℚ) : List ℚ → ℕ
  | [] => 0
  | y :: ys => if x = y then 0 else firstPos x ys + 1

/-- Number of list elements strictly greater than `x`. -/
def countGT (x : ℚ) : List ℚ → ℕ
  | [] => 0
  | y :: ys => (if x < y then 1 else 0) + countGT x ys

/-- pandas `rank(ascending=False, method="min")` of value `x` within the
metric column `ms`: 1 + the position of the first occurrence of `x` in
the descending sort of `ms`. -/
def rankMinDesc (ms : List ℚ) (x : ℚ) : ℕ :=
  firstPos x (sortDescBy id ms) + 1

/-- The whole rank column, in dataframe order. -/
def rankColumn (ms : List ℚ) : List ℕ := ms.map (rankMinDesc ms)

/-! ### `fill_norm` (`branded_map.py` lines 841-845) -/

/-- pandas `Series.min()` of a nonempty column (the empty case is
unreachable: the source returns early when the frame is empty). -/
def vMin : List ℚ → ℚ
  | [] => 0
  | x :: xs => xs.foldl min x

/-- pandas `Series.max()` of a nonempty column. -/
def vMax : List ℚ → ℚ
  | [] => 0
  | x :: xs => xs.foldl max x

/-- `fill_norm` of one metric value (`branded_map.py` lines 841-845):
`0.5` when `v_min == v_max`, else `(v - v_min) / (v_max - v_min)`.
(The `pd.isna` guards are unreachable after the NaN-dropping filters.) -/
def fill_norm (ms : List ℚ) (m : ℚ) : ℚ :=
  if vMin ms = vMax ms then 1 / 2 else (m - vMin ms) / (vMax ms - vMin ms)

/-! ### High/low tables (`build_ranked_table_html` lines 740-763,
call sites lines 1038-1055) -/

/-- `enumerate(..., start=k)`. -/
def numberFrom {α : Type} (k : ℕ) : List α → List (ℕ × α)
  | [] => []
  | x :: xs => (k, x) :: numberFrom (k + 1) xs

/-- The body rows of `build_ranked_table_html` (lines 756-763): the
first `top_n` rows of the frame, each paired with the displayed rank
pill, which is the 1-based enumeration index
(`enumerate(df.head(top_n).iterrows(), start=1)`). -/
def tableRows (df : List Record) (top_n : ℕ) : List (ℕ × Record) :=
  numberFrom 1 (df.take top_n)

/-- The two derived views of `generate_map_table_html_from_df` (lines
1051-1055): `df_high` sorted by the metric descending, `df_low`
ascending, each rendered by `build_ranked_table_html` with the literal
argument `top_n=10`.  The function's own `top_n` parameter (line 791)
is not used at these call sites. -/
def generateTables (recs : List Record) (_top_n : ℕ) :
    List (ℕ × Record) × List (ℕ × Record) :=
  (tableRows (sortDescBy Record.metric recs) 10,
   tableRows (sortAscBy Record.metric recs) 10)

/-! ### Filename allocator (`app.py` lines 156-183; `t`-prefixed copies
in `branded_map.py` lines 161-189 and `branded_table_generator.py`
lines 157-184) -/

/-- Drop an exact leading character sequence, or fail. -/
def dropLead : List Char → List Char → Option (List Char)
  | [], l => some l
  | _ :: _, [] => none
  | p :: ps, c :: cs => if c = p then dropLead ps cs else none

/-- Drop an exact trailing character sequence, or fail. -/
def dropTrail (sfx l : List Char) : Option (List Char) :=
  if l.length < sfx.length then none
  else if l.drop (l.length - sfx.length) = sfx then
    some (l.take (l.length - sfx.length))
  else none

/-- `re.fullmatch(r"{pre}(\d+){ext}", name)` followed by `int(...)` on
the digit group: anchored match of `pre`, then one or more digits, then
`ext`; returns the parsed integer. -/
def matchSuffixNum (pre ext : String) (name : String) : Option ℕ :=
  match dropLead pre.data name.data with
  | none => none
  | some rest =>
    match dropTrail ext.data rest with
    | none => none
    | some mid =>
      if mid ≠ [] ∧ mid.all Char.isDigit then some (digitsVal mid) else none

/-- The `max_n` scan of `find_next_widget_filename`: fold `max` over
all anchored matches, starting from 0. -/
def maxSuffix (pre ext : String) (names : List String) : ℕ :=
  names.foldl
    (fun acc n => match matchSuffixNum pre ext n with
      | some k => max acc k
      | none => acc)
    0

/-- `find_next_widget_filename` (`app.py` lines 156-183), parameterized
by the prefix/extension literals of the three copies.  `none` models a
non-200 listing response or a JSON decoding failure, both of which
return the default name; otherwise the result is
`pre + str(max_n + 1) + ext` (the source's `if max_n >= 0` guard is
always true). -/
def findNextWidgetFilename (pre ext : String) (listing : Option (List String)) :
    String :=
  match listing with
  | none => pre ++ "1" ++ ext
  | some names =>
    let maxN := maxSuffix pre ext names
    if 0 ≤ maxN then pre ++ toString (maxN + 1) ++ ext else pre ++ "1" ++ ext

example : findNextWidgetFilename "w" ".html"
    (some ["w1.html", "w2.html", "w9.html", "notes.txt"]) = "w10.html" := by rfl
example : findNextWidgetFilename "w" ".html" (some []) = "w1.html" := by rfl
example : findNextWidgetFilename "w" ".html" none = "w1.html" := by rfl
example : findNextWidgetFilename "t" ".html" (some ["t2.html"]) = "t3.html" := by rfl

/-! ### Sorting lemmas -/

theorem perm_insertDescBy {α : Type} (key : α → ℚ) (x : α) (l : List α) :
    (insertDescBy key x l).Perm (x :: l) := by
  induction l with
  | nil => simp [insertDescBy]
  | cons y ys ih =>
    by_cases h : key y ≤ key x
    · simp [insertDescBy, h]
    · simpa [insertDescBy, h] using (ih.cons y).trans (List.Perm.swap x y ys)

theorem perm_sortDescBy {α : Type} (key : α → ℚ) (l : List α) :
    (sortDescBy key l).Perm l := by
  induction l with
  | nil => simp [sortDescBy]
  | cons x xs ih => exact (perm_insertDescBy key x (sortDescBy key xs)).trans (ih.cons x)

theorem perm_insertAscBy {α : Type} (key : α → ℚ) (x : α) (l : List α) :
    (insertAscBy key x l).Perm (x :: l) := by
  induction l with
  | nil => simp [insertAscBy]
  | cons y ys ih =>
    by_cases h : key x ≤ key y
    · simp [insertAscBy, h]
    · simpa [insertAscBy, h] using (ih.cons y).trans (List.Perm.swap x y ys)

theorem perm_sortAscBy {α : Type} (key : α → ℚ) (l : List α) :
    (sortAscBy key l).Perm l := by
  induction l with
  | nil => simp [sortAscBy]
  | cons x xs ih => exact (perm_insertAscBy key x (sortAscBy key xs)).trans (ih.cons x)

theorem mem_insertDescBy {α : Type} {key : α → ℚ} {x z : α} {l : List α} :
    z ∈ insertDescBy key x l ↔ z = x ∨ z ∈ l :=
  by simpa using (perm_insertDescBy key x l).mem_iff

theorem sorted_insertDescBy {α : Type} {key : α → ℚ} (x : α) {l : List α}
    (h : l.Pairwise (fun a b => key b ≤ key a)) :
    (insertDescBy key x l).Pairwise (fun a b => key b ≤ key a) := by
  induction l with
  | nil => simp [insertDescBy]
  | cons y ys ih =>
    rw [List.pairwise_cons] at h
    by_cases hxy : key y ≤ key x
    · rw [insertDescBy, if_pos hxy]
      refine List.Pairwise.cons ?_ (List.Pairwise.cons h.1 h.2)
      intro z hz
      rcases List.mem_cons.mp hz with rfl | hz
      · exact hxy
      · exact le_trans (h.1 z hz) hxy
    · rw [insertDescBy, if_neg hxy]
      refine List.Pairwise.cons ?_ (ih h.2)
      intro z hz
      rcases mem_insertDescBy.mp hz with rfl | hz
      · exact le_of_lt (lt_of_not_le hxy)
      · exact h.1 z hz

theorem sorted_sortDescBy {α : Type} (key : α → ℚ) (l : List α) :
    (sortDescBy key l).Pairwise (fun a b => key b ≤ key a) := by
  induction l with
  | nil => simp [sortDescBy]
  | cons x xs ih => exact sorted_insertDescBy x ih

theorem mem_insertAscBy {α : Type} {key : α → ℚ} {x z : α} {l : List α} :
    z ∈ insertAscBy key x l ↔ z = x ∨ z ∈ l :=
  by simpa using (perm_insertAscBy key x l).mem_iff

theorem sorted_insertAscBy {α : Type} {key : α → ℚ} (x : α) {l : List α}
    (h : l.Pairwise (fun a b => key a ≤ key b)) :
    (insertAscBy key x l).Pairwise (fun a b => key a ≤ key b) := by
  induction l with
  | nil => simp [insertAscBy]
  | cons y ys ih =>
    rw [List.pairwise_cons] at h
    by_cases hxy : key x ≤ key y
    · rw [insertAscBy, if_pos hxy]
      refine List.Pairwise.cons ?_ (List.Pairwise.cons h.1 h.2)
      intro z hz
      rcases List.mem_cons.mp hz with rfl | hz
      · exact hxy
      · exact le_trans hxy (h.1 z hz)
    · rw [insertAscBy, if_neg hxy]
      refine List.Pairwise.cons ?_ (ih h.2)
      intro z hz
      rcases mem_insertAscBy.mp hz with rfl | hz
      · exact le_of_lt (lt_of_not_le hxy)
      · exact h.1 z hz

theorem sorted_sortAscBy {α : Type} (key : α → ℚ) (l : List α) :
    (sortAscBy key l).Pairwise (fun a b => key a ≤ key b) := by
  induction l with
  | nil => simp [sortAscBy]
  | cons x xs ih => exact sorted_insertAscBy x ih

/-! ### Rank lemmas -/

theorem countGT_eq_countP (x : ℚ) (l : List ℚ) :
    countGT x l = l.countP (fun y => decide (x < y)) := by
  induction l with
  | nil => rfl
  | cons y ys ih =>
    by_cases h : x < y <;> simp [countGT, List.countP_cons, ih, h, Nat.add_comm]

theorem countGT_perm (x : ℚ) {l l' : List ℚ} (h : l.Perm l') :
    countGT x l = countGT x l' := by
  rw [countGT_eq_countP, countGT_eq_countP, h.countP_eq]

/-- In a list sorted descending, the first occurrence of a member `x`
sits right after the elements strictly greater than `x`. -/
theorem firstPos_sorted_desc {l : List ℚ} {x : ℚ}
    (hs : l.Pairwise (fun a b => b ≤ a)) (hx : x ∈ l) :
    firstPos x l = countGT x l := by
  induction l with
  | nil => cases hx
  | cons y ys ih =>
    rw [List.pairwise_cons] at hs
    by_cases hxy : x = y
    · subst hxy
      have h0 : countGT x ys = 0 := by
        rw [countGT_eq_countP, List.countP_eq_zero]
        intro z hz
        simpa using not_lt.mpr (hs.1 z hz)
      simp [firstPos, countGT, h0]
    · have hx' : x ∈ ys := by
        rcases List.mem_cons.mp hx with h | h
        · exact absurd h hxy
        · exact h
      have hlt : x < y := lt_of_le_of_ne (hs.1 x hx') (Ne.symm ?_)
      · rw [firstPos, if_neg hxy, countGT, if_pos hlt, ih hs.2 hx']
        omega
      · exact fun h => hxy h.symm

/-! ### Min/max lemmas -/

theorem foldl_min_le_init (l : List ℚ) (a : ℚ) : l.foldl min a ≤ a := by
  induction l generalizing a with
  | nil => exact le_refl a
  | cons x xs ih => exact le_trans (ih (min a x)) (min_le_left a x)

theorem foldl_min_le_mem {l : List ℚ} {m : ℚ} (hm : m ∈ l) (a : ℚ) :
    l.foldl min a ≤ m := by
  induction l generalizing a with
  | nil => cases hm
  | cons x xs ih =>
    rcases List.mem_cons.mp hm with rfl | hm'
    · exact le_trans (foldl_min_le_init xs (min a m)) (min_le_right a m)
    · exact ih hm' (min a x)

theorem init_le_foldl_max (l : List ℚ) (a : ℚ) : a ≤ l.foldl max a := by
  induction l generalizing a with
  | nil => exact le_refl a
  | cons x xs ih => exact le_trans (le_max_left a x) (ih (max a x))

theorem mem_le_foldl_max {l : List ℚ} {m : ℚ} (hm : m ∈ l) (a : ℚ) :
    m ≤ l.foldl max a := by
  induction l generalizing a with
  | nil => cases hm
  | cons x xs ih =>
    rcases List.mem_cons.mp hm with rfl | hm'
    · exact le_trans (le_max_right a m) (init_le_foldl_max xs (max a m))
    · exact ih hm' (max a x)

theorem vMin_le {ms : List ℚ} {m : ℚ} (hm : m ∈ ms) : vMin ms ≤ m := by
  cases ms with
  | nil => cases hm
  | cons x xs =>
    rcases List.mem_cons.mp hm with rfl | hm'
    · exact foldl_min_le_init xs m
    · exact foldl_min_le_mem hm' x

theorem le_vMax {ms : List ℚ} {m : ℚ} (hm : m ∈ ms) : m ≤ vMax ms := by
  cases ms with
  | nil => cases hm
  | cons x xs =>
    rcases List.mem_cons.mp hm with rfl | hm'
    · exact init_le_foldl_max xs m
    · exact mem_le_foldl_max hm' x

/-! ### Claim theorems -/

/-- **C1.** Rank computation uses minimum-rank (competition) tie
semantics: pandas `rank(ascending=False, method="min")` — embedded as
1 + the first position of the value in the descending sort — equals
`1 + (count of records with strictly greater metric)` for every member
of the metric column; and on the metric column `[10, 10, 5]` the rank
column is `[1, 1, 3]`, not `[1, 2, 3]` and not `[1, 1, 2]`. -/
theorem rank_min_tie_semantics (ms : List ℚ) (x : ℚ) (hx : x ∈ ms) :
    rankMinDesc ms x = 1 + countGT x ms ∧
    rankColumn [10, 10, 5] = [1, 1, 3] ∧
    rankColumn [10, 10, 5] ≠ [1, 2, 3] ∧
    rankColumn [10, 10, 5] ≠ [1, 1, 2] := by
  refine ⟨?_, by decide, by decide, by decide⟩
  have hperm := perm_sortDescBy id ms
  have hsort : (sortDescBy id ms).Pairwise (fun a b => b ≤ a) := by
    simpa using sorted_sortDescBy id ms
  have hx' : x ∈ sortDescBy id ms := hperm.mem_iff.mpr hx
  rw [rankMinDesc, firstPos_sorted_desc hsort hx', countGT_perm x hperm]
  omega

/-- Witness for `rank_min_tie_semantics` at the concrete column
`[10, 10, 5]` and value `10`. -/
theorem rank_min_tie_semantics_witness :
    (10 : ℚ) ∈ [(10 : ℚ), 10, 5] ∧
    (rankMinDesc [10, 10, 5] 10 = 1 + countGT 10 [10, 10, 5] ∧
     rankColumn [10, 10, 5] = [1, 1, 3] ∧
     rankColumn [10, 10, 5] ≠ [1, 2, 3] ∧
     rankColumn [10, 10, 5] ≠ [1, 1, 2]) :=
  ⟨by decide, rank_min_tie_semantics [10, 10, 5] 10 (by decide)⟩

/-- **C4.** `norm_position` (`fill_norm`): when `max == min` (including
a single record) every value is `0.5`; otherwise each value equals
`(metric - min) / (max - min)` clamped to `[0, 1]` (the clamp is the
identity here, exact arithmetic cannot overshoot), the minimum gets
`0`, the maximum gets `1`, and all values lie in `[0, 1]`. -/
theorem fill_norm_bounds (ms : List ℚ) (m : ℚ) (hm : m ∈ ms) :
    (vMin ms = vMax ms → fill_norm ms m = 1 / 2) ∧
    fill_norm [m] m = 1 / 2 ∧
    (vMin ms ≠ vMax ms →
      fill_norm ms m = max 0 (min 1 ((m - vMin ms) / (vMax ms - vMin ms))) ∧
      0 ≤ fill_norm ms m ∧ fill_norm ms m ≤ 1 ∧
      (m = vMin ms → fill_norm ms m = 0) ∧
      (m = vMax ms → fill_norm ms m = 1)) := by
  refine ⟨fun h => by rw [fill_norm, if_pos h], by simp [fill_norm, vMin, vMax], fun hne => ?_⟩
  have h1 : vMin ms ≤ m := vMin_le hm
  have h2 : m ≤ vMax ms := le_vMax hm
  have hpos : 0 < vMax ms - vMin ms :=
    sub_pos.mpr (lt_of_le_of_ne (le_trans h1 h2) hne)
  have hval : fill_norm ms m = (m - vMin ms) / (vMax ms - vMin ms) := by
    rw [fill_norm, if_neg hne]
  have hr0 : 0 ≤ (m - vMin ms) / (vMax ms - vMin ms) :=
    div_nonneg (sub_nonneg.mpr h1) (le_of_lt hpos)
  have hr1 : (m - vMin ms) / (vMax ms - vMin ms) ≤ 1 :=
    (div_le_one hpos).mpr (by linarith)
  refine ⟨?_, ?_, ?_, ?_, ?_⟩
  · rw [hval, min_eq_right hr1, max_eq_right hr0]
  · rw [hval]; exact hr0
  · rw [hval]; exact hr1
  · intro h; rw [hval, h, sub_self, zero_div]
  · intro h; rw [hval, h, div_self (ne_of_gt hpos)]

/-- Witness for `fill_norm_bounds` at the concrete column `[1, 2]` and
value `1`. -/
theorem fill_norm_bounds_witness :
    (1 : ℚ) ∈ [(1 : ℚ), 2] ∧
    ((vMin [(1 : ℚ), 2] = vMax [(1 : ℚ), 2] → fill_norm [(1 : ℚ), 2] 1 = 1 / 2) ∧
     fill_norm [(1 : ℚ)] 1 = 1 / 2 ∧
     (vMin [(1 : ℚ), 2] ≠ vMax [(1 : ℚ), 2] →
       fill_norm [(1 : ℚ), 2] 1 =
         max 0 (min 1 ((1 - vMin [(1 : ℚ), 2]) / (vMax [(1 : ℚ), 2] - vMin [(1 : ℚ), 2]))) ∧
       0 ≤ fill_norm [(1 : ℚ), 2] 1 ∧ fill_norm [(1 : ℚ), 2] 1 ≤ 1 ∧
       (1 = vMin [(1 : ℚ), 2] → fill_norm [(1 : ℚ), 2] 1 = 0) ∧
       (1 = vMax [(1 : ℚ), 2] → fill_norm [(1 : ℚ), 2] 1 = 1))) :=
  ⟨by decide, fill_norm_bounds [1, 2] 1 (by decide)⟩

/-! ### Lookup lemmas -/

theorem lookup_mem {k v : String} :
    ∀ {d : List (String × String)}, List.lookup k d = some v → (k, v) ∈ d := by
  intro d
  induction d with
  | nil => intro h; cases h
  | cons p es ih =>
    intro h
    rw [List.lookup_cons] at h
    cases hkp : (k == p.1) with
    | true =>
      rw [hkp] at h
      cases h
      exact List.mem_cons.mpr (Or.inl (by rw [eq_of_beq hkp]))
    | false =>
      rw [hkp] at h
      exact List.mem_cons.mpr (Or.inr (ih h))

theorem lookup_eq_none_iff {k : String} {d : List (String × String)} :
    List.lookup k d = none ↔ ∀ v, (k, v) ∉ d := by
  induction d with
  | nil => simp
  | cons p es ih =>
    rw [List.lookup_cons]
    cases hkp : (k == p.1) with
    | true =>
      have hk : k = p.1 := eq_of_beq hkp
      simp only [List.mem_cons]
      constructor
      · intro h; cases h
      · intro h
        exact absurd (Or.inl (by rw [hk])) (h p.2)
    | false =>
      have hk : k ≠ p.1 := fun h => by simp [h] at hkp
      rw [ih]
      constructor
      · intro h v hv
        rcases List.mem_cons.mp hv with h' | h'
        · exact hk (congrArg Prod.fst h')
        · exact h v h'
      · intro h v hv
        exact h v (List.mem_cons.mpr (Or.inr hv))

theorem dictFind_mem {d : List (String × String)} {k v : String}
    (h : dictFind d k = some v) : (k, v) ∈ d :=
  List.mem_reverse.mp (lookup_mem h)

theorem dictFind_eq_none_iff {d : List (String × String)} {k : String} :
    dictFind d k = none ↔ ∀ v, (k, v) ∉ d := by
  rw [dictFind, lookup_eq_none_iff]
  constructor
  · intro h v hv; exact h v (List.mem_reverse.mpr hv)
  · intro h v hv; exact h v (List.mem_reverse.mp hv)

theorem mem_foldl_append {α β : Type} (f : β → List α) (l : List β)
    (init : List α) (x : α) :
    x ∈ l.foldl (fun d b => d ++ f b) init ↔ x ∈ init ∨ ∃ b ∈ l, x ∈ f b := by
  induction l generalizing init with
  | nil => simp
  | cons b bs ih =>
    rw [List.foldl_cons, ih, List.mem_append]
    simp only [List.mem_cons]
    constructor
    · rintro ((h | h) | ⟨b', hb', hx⟩)
      · exact Or.inl h
      · exact Or.inr ⟨b, Or.inl rfl, h⟩
      · exact Or.inr ⟨b', Or.inr hb', hx⟩
    · rintro (h | ⟨b', (rfl | hb'), hx⟩)
      · exact Or.inl (Or.inl h)
      · exact Or.inl (Or.inr hx)
      · exact Or.inr ⟨b', hb', hx⟩

/-- Every entry of `STATE_LOOKUP` carries the code of some `STATE_ABBR`
state as its value. -/
theorem STATE_LOOKUP_val {p : String × String} (hp : p ∈ STATE_LOOKUP) :
    ∃ q ∈ STATE_ABBR, p.2 = q.2 := by
  rw [STATE_LOOKUP, mem_foldl_append] at hp
  rcases hp with h | ⟨q, hq, hblock⟩
  · cases h
  · refine ⟨q, hq, ?_⟩
    simp only [List.mem_cons, List.not_mem_nil, or_false] at hblock
    rcases hblock with rfl | rfl | rfl | rfl | rfl | rfl | rfl <;> rfl

/-- Every `STATE_ABBR` code is 2 characters long and upper-case. -/
theorem STATE_ABBR_codes : ∀ q ∈ STATE_ABBR, q.2.length = 2 ∧ pyUpper q.2 = q.2 := by
  decide

/-- **C2.** The normalizer trims first; identifiers of (trimmed) length
at most 2 are upper-cased, longer identifiers are title-cased, before
the `STATE_LOOKUP` lookup; a resolved result is a canonical 2-letter
upper-case code of `STATE_ABBR`; and the identifier is unresolved
(`none`) exactly when the classified string is not a key of the
lookup. -/
theorem normalize_spec (s : String) :
    normalize s = dictFind STATE_LOOKUP (classify (pyStrip s)) ∧
    ((pyStrip s).length ≤ 2 → classify (pyStrip s) = pyUpper (pyStrip s)) ∧
    (2 < (pyStrip s).length → classify (pyStrip s) = pyTitle (pyStrip s)) ∧
    (∀ c, normalize s = some c →
      c.length = 2 ∧ pyUpper c = c ∧ ∃ q ∈ STATE_ABBR, c = q.2) ∧
    (normalize s = none ↔ ∀ v, (classify (pyStrip s), v) ∉ STATE_LOOKUP) := by
  refine ⟨rfl, ?_, ?_, ?_, ?_⟩
  · intro h; rw [classify, if_neg (by omega)]
  · intro h; rw [classify, if_pos h]
  · intro c hc
    have hmem : (classify (pyStrip s), c) ∈ STATE_LOOKUP := dictFind_mem hc
    obtain ⟨q, hq, hval⟩ := STATE_LOOKUP_val hmem
    have hval' : c = q.2 := hval
    obtain ⟨hlen, hupper⟩ := STATE_ABBR_codes q hq
    exact ⟨by rw [hval', hlen], by rw [hval', hupper], q, hq, hval'⟩
  · exact dictFind_eq_none_iff

/-- Witness for `normalize_spec` at the identifier `" texas "`. -/
theorem normalize_spec_witness :
    normalize " texas " = some "TX" ∧
    (normalize " texas " = dictFind STATE_LOOKUP (classify (pyStrip " texas ")) ∧
     ((pyStrip " texas ").length ≤ 2 → classify (pyStrip " texas ") = pyUpper (pyStrip " texas ")) ∧
     (2 < (pyStrip " texas ").length → classify (pyStrip " texas ") = pyTitle (pyStrip " texas ")) ∧
     (∀ c, normalize " texas " = some c →
       c.length = 2 ∧ pyUpper c = c ∧ ∃ q ∈ STATE_ABBR, c = q.2) ∧
     (normalize " texas " = none ↔ ∀ v, (classify (pyStrip " texas "), v) ∉ STATE_LOOKUP)) :=
  ⟨by rfl, normalize_spec " texas "⟩

/-- **C10.** An identifier that trims to the empty string is always
unresolved: its trimmed length 0 is at most 2, it classifies (via
upper-casing) to `""`, which is not a key of `STATE_LOOKUP`, so a row
carrying it contributes nothing to the working set. -/
theorem empty_identifier_dropped (s : String) (h : pyStrip s = "") :
    classify (pyStrip s) = "" ∧
    normalize s = none ∧
    ∀ (mt : String) (rows : List RawRow),
      pipelineRecords (RawRow.mk s mt :: rows) = pipelineRecords rows := by
  have hcl : classify (pyStrip s) = "" := by rw [h]; rfl
  have hnone : normalize s = none := by
    rw [normalize, hcl]
    rfl
  refine ⟨hcl, hnone, fun mt rows => ?_⟩
  have hstrip : normalize (pyStrip s) = none := by rw [h]; rfl
  simp [pipelineRecords, hstrip]

/-- Witness for `empty_identifier_dropped` at the identifier `"  "`. -/
theorem empty_identifier_dropped_witness :
    pyStrip "  " = "" ∧
    (classify (pyStrip "  ") = "" ∧
     normalize "  " = none ∧
     ∀ (mt : String) (rows : List RawRow),
       pipelineRecords (RawRow.mk "  " mt :: rows) = pipelineRecords rows) :=
  ⟨by rfl, empty_identifier_dropped "  " (by rfl)⟩

/-! ### Pipeline lemmas -/

theorem pipelineRecords_cons (r : RawRow) (rows : List RawRow) :
    pipelineRecords (r :: rows) =
      (match normalize (pyStrip r.state), coerceMetric r.metric with
        | some c, some m => [Record.mk (pyStrip r.state) c m]
        | _, _ => []) ++ pipelineRecords rows := by
  rcases h1 : normalize (pyStrip r.state) with _ | c <;>
    rcases h2 : coerceMetric r.metric with _ | m <;>
      simp [pipelineRecords, h1, h2]

/-- The two sequential drops (missing `state_abbr`, then missing
metric) collapse to one conjunctive filter: a row survives iff both
checks pass, and the surviving row is materialized with both fields. -/
theorem pipelineRecords_eq (rows : List RawRow) :
    pipelineRecords rows = rows.filterMap (fun r =>
      (normalize (pyStrip r.state)).bind (fun c =>
        (coerceMetric r.metric).map (fun m => Record.mk (pyStrip r.state) c m))) := by
  induction rows with
  | nil => rfl
  | cons r rs ih =>
    rw [pipelineRecords_cons, ih, List.filterMap_cons]
    rcases h1 : normalize (pyStrip r.state) with _ | c <;>
      rcases h2 : coerceMetric r.metric with _ | m <;> simp [h1, h2]

/-- **C3.** A record appears in the prepared working set iff some input
row trims to its identifier, resolves to its canonical code, and has a
metric text that (after stripping `%` and `,`) parses to its metric; a
row failing either check contributes nothing, and every surviving
record carries both a canonical code and a numeric metric (the
`Record` fields are total). -/
theorem pipeline_membership (rows : List RawRow) (rec : Record) :
    rec ∈ pipelineRecords rows ↔
      ∃ r ∈ rows, rec.state = pyStrip r.state ∧
        normalize (pyStrip r.state) = some rec.canonical_code ∧
        coerceMetric r.metric = some rec.metric := by
  rw [pipelineRecords_eq, List.mem_filterMap]
  constructor
  · rintro ⟨r, hr, hbind⟩
    rcases Option.bind_eq_some.mp hbind with ⟨c, hc, hmap⟩
    rcases Option.map_eq_some'.mp hmap with ⟨m, hm, hrec⟩
    exact ⟨r, hr, by rw [← hrec], by rw [hc, ← hrec], by rw [hm, ← hrec]⟩
  · rintro ⟨r, hr, hstate, hcode, hmetric⟩
    refine ⟨r, hr, ?_⟩
    rw [hcode, hmetric]
    simp [Option.bind_eq_some, ← hstate]

/-! ### Allocator lemmas -/

theorem le_foldl_maxSuffix (pre ext : String) (names : List String) (acc : ℕ) :
    acc ≤ names.foldl
      (fun a n => match matchSuffixNum pre ext n with
        | some k => max a k
        | none => a)
      acc := by
  induction names generalizing acc with
  | nil => exact le_refl acc
  | cons n ns ih =>
    rcases h : matchSuffixNum pre ext n with _ | k <;> simp only [List.foldl_cons, h]
    · exact ih acc
    · exact le_trans (le_max_left acc k) (ih (max acc k))

theorem matched_le_maxSuffix {pre ext : String} {names : List String}
    {n : String} {k : ℕ} (hn : n ∈ names)
    (hk : matchSuffixNum pre ext n = some k) :
    k ≤ maxSuffix pre ext names := by
  rw [maxSuffix]
  generalize 0 = acc
  induction names generalizing acc with
  | nil => cases hn
  | cons m ms ih =>
    rcases List.mem_cons.mp hn with rfl | hn'
    · rw [List.foldl_cons, hk]
      exact le_trans (le_max_right acc k) (le_foldl_maxSuffix pre ext ms (max acc k))
    · rcases h : matchSuffixNum pre ext m with _ | j <;> simp only [List.foldl_cons, h]
      · exact ih hn' acc
      · exact ih hn' (max acc j)

theorem maxSuffix_zero_or_matched (pre ext : String) (names : List String) :
    maxSuffix pre ext names = 0 ∨
      maxSuffix pre ext names ∈ names.filterMap (matchSuffixNum pre ext) := by
  rw [maxSuffix]
  have : ∀ (ns : List String) (acc : ℕ),
      ns.foldl
        (fun a n => match matchSuffixNum pre ext n with
          | some k => max a k
          | none => a)
        acc = acc ∨
      ns.foldl
        (fun a n => match matchSuffixNum pre ext n with
          | some k => max a k
          | none => a)
        acc ∈ ns.filterMap (matchSuffixNum pre ext) := by
    intro ns
    induction ns with
    | nil => exact fun acc => Or.inl rfl
    | cons n ns' ih =>
      intro acc
      rcases h : matchSuffixNum pre ext n with _ | k <;>
        simp only [List.foldl_cons, h, List.filterMap_cons]
      · exact ih acc
      · rcases ih (max acc k) with heq | hmem
        · rcases max_choice acc k with hc | hc
          · exact Or.inl (by rw [heq, hc])
          · exact Or.inr (by rw [heq, hc]; exact List.mem_cons_self k _)
        · exact Or.inr (List.mem_cons.mpr (Or.inr hmem))
  exact this names 0

/-- **C5.** The allocator takes the maximum integer parsed from names
exactly matching prefix-digits-extension (0 when none matches) and
returns `prefix + str(maximum + 1) + extension`; on
`["w1.html", "w2.html", "w9.html", "notes.txt"]` it returns
`"w10.html"`, and on an empty or unavailable listing `"w1.html"`. -/
theorem next_filename_allocation :
    findNextWidgetFilename "w" ".html"
      (some ["w1.html", "w2.html", "w9.html", "notes.txt"]) = "w10.html" ∧
    findNextWidgetFilename "w" ".html" (some []) = "w1.html" ∧
    findNextWidgetFilename "w" ".html" none = "w1.html" ∧
    ∀ names : List String,
      findNextWidgetFilename "w" ".html" (some names) =
        "w" ++ toString (maxSuffix "w" ".html" names + 1) ++ ".html" ∧
      (∀ k ∈ names.filterMap (matchSuffixNum "w" ".html"),
        k ≤ maxSuffix "w" ".html" names) ∧
      (maxSuffix "w" ".html" names = 0 ∨
        maxSuffix "w" ".html" names ∈ names.filterMap (matchSuffixNum "w" ".html")) := by
  refine ⟨by rfl, by rfl, by rfl, fun names => ⟨by simp [findNextWidgetFilename], ?_, ?_⟩⟩
  · intro k hk
    rcases List.mem_filterMap.mp hk with ⟨n, hn, hmatch⟩
    exact matched_le_maxSuffix hn hmatch
  · exact maxSuffix_zero_or_matched "w" ".html" names

/-- **C7.** The suffix number the allocator returns (`max + 1`) never
collides with the suffix of any existing name that matches the
anchored pattern prefix-digits-extension: every matched suffix is at
most the maximum. -/
theorem allocator_no_collision (pre ext : String) (names : List String)
    (n : String) (k : ℕ) (hn : n ∈ names)
    (hk : matchSuffixNum pre ext n = some k) :
    findNextWidgetFilename pre ext (some names) =
      pre ++ toString (maxSuffix pre ext names + 1) ++ ext ∧
    k ≠ maxSuffix pre ext names + 1 := by
  refine ⟨by simp [findNextWidgetFilename], ?_⟩
  have h := matched_le_maxSuffix hn hk
  omega

/-- Witness for `allocator_no_collision` at the listing `["w2.html"]`. -/
theorem allocator_no_collision_witness :
    ("w2.html" ∈ ["w2.html"] ∧ matchSuffixNum "w" ".html" "w2.html" = some 2) ∧
    (findNextWidgetFilename "w" ".html" (some ["w2.html"]) =
      "w" ++ toString (maxSuffix "w" ".html" ["w2.html"] + 1) ++ ".html" ∧
     2 ≠ maxSuffix "w" ".html" ["w2.html"] + 1) :=
  ⟨⟨List.mem_cons_self _ _, by rfl⟩,
   allocator_no_collision "w" ".html" ["w2.html"] "w2.html" 2
     (List.mem_cons_self _ _) (by rfl)⟩

/-- **C6, counterexample.** The allocator does not return the lowest
unused suffix: on the listing `["t2.html"]` the lowest unused suffix is
1 (no listed name matches with suffix 1), yet it returns `"t3.html"`,
not `"t1.html"`. -/
theorem allocator_not_lowest_unused :
    findNextWidgetFilename "t" ".html" (some ["t2.html"]) = "t3.html" ∧
    "t3.html" ≠ "t1.html" ∧
    (∀ n ∈ ["t2.html"], matchSuffixNum "t" ".html" n ≠ some 1) := by
  refine ⟨by rfl, by decide, ?_⟩
  intro n hn
  rcases List.mem_cons.mp hn with rfl | h
  · intro h; cases h
  · cases h

/-- **C6, amended.** The allocator returns the successor of the highest
used suffix, `prefix + str(max + 1) + extension` — not the lowest
unused suffix — and defaults to suffix 1 when the listing is
unavailable or nothing matches. -/
theorem allocator_max_plus_one :
    findNextWidgetFilename "t" ".html" none = "t1.html" ∧
    ∀ names : List String,
      findNextWidgetFilename "t" ".html" (some names) =
        "t" ++ toString (maxSuffix "t" ".html" names + 1) ++ ".html" ∧
      (∀ k ∈ names.filterMap (matchSuffixNum "t" ".html"),
        k ≤ maxSuffix "t" ".html" names) ∧
      (maxSuffix "t" ".html" names = 0 ∨
        maxSuffix "t" ".html" names ∈ names.filterMap (matchSuffixNum "t" ".html")) := by
  refine ⟨by rfl, fun names => ⟨by simp [findNextWidgetFilename], ?_, ?_⟩⟩
  · intro k hk
    rcases List.mem_filterMap.mp hk with ⟨n, hn, hmatch⟩
    exact matched_le_maxSuffix hn hmatch
  · exact maxSuffix_zero_or_matched "t" ".html" names

/-! ### Table lemmas -/

theorem numberFrom_length {α : Type} (k : ℕ) (l : List α) :
    (numberFrom k l).length = l.length := by
  induction l generalizing k with
  | nil => rfl
  | cons x xs ih => simp [numberFrom, ih]

theorem mem_numberFrom_snd {α : Type} {k : ℕ} {l : List α} {p : ℕ × α}
    (hp : p ∈ numberFrom k l) : p.2 ∈ l := by
  induction l generalizing k with
  | nil => cases hp
  | cons x xs ih =>
    rcases List.mem_cons.mp hp with rfl | h
    · exact List.mem_cons_self x xs
    · exact List.mem_cons.mpr (Or.inr (ih h))

theorem pairwise_numberFrom {α : Type} {R : α → α → Prop} {k : ℕ} {l : List α}
    (h : l.Pairwise R) :
    (numberFrom k l).Pairwise (fun p q => R p.2 q.2) := by
  induction l generalizing k with
  | nil => exact List.Pairwise.nil
  | cons x xs ih =>
    rw [List.pairwise_cons] at h
    refine List.Pairwise.cons ?_ (ih h.2)
    intro q hq
    exact h.1 q.2 (mem_numberFrom_snd hq)

theorem numberFrom_map_fst {α : Type} (k : ℕ) (l : List α) :
    (numberFrom k l).map Prod.fst = List.range' k l.length := by
  induction l generalizing k with
  | nil => rfl
  | cons x xs ih => simp [numberFrom, ih, List.range'_succ]

theorem numberFrom_map_snd {α : Type} (k : ℕ) (l : List α) :
    (numberFrom k l).map Prod.snd = l := by
  induction l generalizing k with
  | nil => rfl
  | cons x xs ih => simp [numberFrom, ih]

/-- **C8, counterexample.** The generator's `top_n` parameter does not
bound the tables: the call sites pass the literal 10, so with
`top_n = 1` and two surviving records each table still holds 2 rows. -/
theorem top_n_parameter_ignored_cex :
    (generateTables [Record.mk "Texas" "TX" 10, Record.mk "Ohio" "OH" 5] 1).1.length = 2 ∧
    ¬ ((generateTables [Record.mk "Texas" "TX" 10, Record.mk "Ohio" "OH" 5] 1).1.length ≤ 1) ∧
    (generateTables [Record.mk "Texas" "TX" 10, Record.mk "Ohio" "OH" 5] 1).2.length = 2 ∧
    ¬ ((generateTables [Record.mk "Texas" "TX" 10, Record.mk "Ohio" "OH" 5] 1).2.length ≤ 1) := by
  decide

/-- **C8, amended.** Exactly two views are derived from the surviving
record set — a descending view (highest metric first) and an ascending
view — drawn from the record set and truncated to at most 10 rows each;
the generator's `top_n` parameter is ignored (the rendered tables are
identical for every value of it). -/
theorem two_views_truncated_to_ten (recs : List Record) (t : ℕ) :
    (generateTables recs t).1.length ≤ 10 ∧
    (generateTables recs t).2.length ≤ 10 ∧
    generateTables recs t = generateTables recs 10 ∧
    (generateTables recs t).1.Pairwise (fun p q => q.2.metric ≤ p.2.metric) ∧
    (generateTables recs t).2.Pairwise (fun p q => p.2.metric ≤ q.2.metric) ∧
    (∀ p ∈ (generateTables recs t).1, p.2 ∈ recs) ∧
    (∀ p ∈ (generateTables recs t).2, p.2 ∈ recs) := by
  refine ⟨?_, ?_, rfl, ?_, ?_, ?_, ?_⟩
  · simp only [generateTables, tableRows]
    rw [numberFrom_length, List.length_take]
    exact min_le_left 10 _
  · simp only [generateTables, tableRows]
    rw [numberFrom_length, List.length_take]
    exact min_le_left 10 _
  · exact pairwise_numberFrom
      (List.Pairwise.sublist (List.take_sublist 10 _) (sorted_sortDescBy Record.metric recs))
  · exact pairwise_numberFrom
      (List.Pairwise.sublist (List.take_sublist 10 _) (sorted_sortAscBy Record.metric recs))
  · intro p hp
    have h1 : p.2 ∈ (sortDescBy Record.metric recs).take 10 := mem_numberFrom_snd hp
    exact (perm_sortDescBy Record.metric recs).mem_iff.mp
      ((List.take_sublist 10 _).mem h1)
  · intro p hp
    have h1 : p.2 ∈ (sortAscBy Record.metric recs).take 10 := mem_numberFrom_snd hp
    exact (perm_sortAscBy Record.metric recs).mem_iff.mp
      ((List.take_sublist 10 _).mem h1)

/-- **C9, counterexample.** In the rendered "highest" table, tied
records are NOT displayed with the same rank numeral: for metrics
`[10, 10, 5]` the tie-aware rank column is `[1, 1, 3]`, but the table
shows the pills `1, 2, 3`, giving the two tied records the distinct
numerals 1 and 2. -/
theorem tied_rows_distinct_pills_cex :
    (generateTables
        [Record.mk "Alabama" "AL" 10, Record.mk "Alaska" "AK" 10,
         Record.mk "Arizona" "AZ" 5] 10).1 =
      [(1, Record.mk "Alabama" "AL" 10), (2, Record.mk "Alaska" "AK" 10),
       (3, Record.mk "Arizona" "AZ" 5)] ∧
    (Record.mk "Alabama" "AL" 10).metric = (Record.mk "Alaska" "AK" 10).metric ∧
    (1 : ℕ) ≠ 2 ∧
    rankColumn [10, 10, 5] = [1, 1, 3] := by
  decide

/-- **C9, amended.** The rank pill displayed in the "highest" and
"lowest" tables is the row's 1-based position in the view
(`enumerate(..., start=1)`), so the displayed numerals are exactly
`1, 2, ..., N` and are pairwise distinct: tied records are shown with
distinct consecutive numerals, and the tie-aware computed rank column
is not rendered in the tables. -/
theorem table_pill_is_row_position (recs : List Record) (t : ℕ) :
    (generateTables recs t).1.map Prod.fst =
      List.range' 1 (generateTables recs t).1.length ∧
    (generateTables recs t).2.map Prod.fst =
      List.range' 1 (generateTables recs t).2.length ∧
    ((generateTables recs t).1.map Prod.fst).Nodup ∧
    ((generateTables recs t).2.map Prod.fst).Nodup := by
  have h1 : (generateTables recs t).1.map Prod.fst =
      List.range' 1 (generateTables recs t).1.length := by
    simp only [generateTables, tableRows]
    rw [numberFrom_map_fst, numberFrom_length]
  have h2 : (generateTables recs t).2.map Prod.fst =
      List.range' 1 (generateTables recs t).2.length := by
    simp only [generateTables, tableRows]
    rw [numberFrom_map_fst, numberFrom_length]
  refine ⟨h1, h2, ?_, ?_⟩
  · rw [h1]; exact List.nodup_range' _ _
  · rw [h2]; exact List.nodup_range' _ _

end Supermoon
